import Mathlib

set_option maxRecDepth 10000

/-!
Verification of the mini-coin-go ledger engine against its specification.

Bytes are modelled as `Nat` values below 256; byte strings as `List Nat`.
Go panics (nil dereference, slice out of range, `log.Panic`) are modelled
by `Option`/`Except` error branches, as a total shallow embedding requires.
-/

namespace MiniCoin

/-! ## SHA-256 (crypto/sha256, as used by merkle.go and utils.go) -/

/-- Truncate to a 32-bit word. -/
def w32 (x : Nat) : Nat := x % 4294967296

/-- Right rotation of a 32-bit word. -/
def rotr (n x : Nat) : Nat := w32 ((x >>> n) ||| (x <<< (32 - n)))

/-- The SHA-256 round constants. -/
def shaK : List Nat :=
  [1116352408, 1899447441, 3049323471, 3921009573, 961987163, 1508970993,
   2453635748, 2870763221, 3624381080, 310598401, 607225278, 1426881987,
   1925078388, 2162078206, 2614888103, 3248222580, 3835390401, 4022224774,
   264347078, 604807628, 770255983, 1249150122, 1555081692, 1996064986,
   2554220882, 2821834349, 2952996808, 3210313671, 3336571891, 3584528711,
   113926993, 338241895, 666307205, 773529912, 1294757372, 1396182291,
   1695183700, 1986661051, 2177026350, 2456956037, 2730485921, 2820302411,
   3259730800, 3345764771, 3516065817, 3600352804, 4094571909, 275423344,
   430227734, 506948616, 659060556, 883997877, 958139571, 1322822218,
   1537002063, 1747873779, 1955562222, 2024104815, 2227730452, 2361852424,
   2428436474, 2756734187, 3204031479, 3329325298]

/-- The SHA-256 initial hash state. -/
def shaH0 : List Nat :=
  [1779033703, 3144134277, 1013904242, 2773480762,
   1359893119, 2600822924, 528734635, 1541459225]

/-- The big-endian byte expansion of `v` on `n` bytes. -/
def toBytesBE (n v : Nat) : List Nat :=
  (List.range n).map (fun i => (v >>> (8 * (n - 1 - i))) % 256)

/-- SHA-256 padding: append 0x80, zeros to 56 mod 64, and the 64-bit
big-endian bit length. -/
def sha256Pad (msg : List Nat) : List Nat :=
  let L := msg.length
  let zeros := (119 - L % 64) % 64
  msg ++ [128] ++ List.replicate zeros 0 ++ toBytesBE 8 (L * 8)

/-- Group bytes into big-endian 32-bit words. -/
def bytesToWords : List Nat → List Nat
  | a :: b :: c :: d :: rest =>
      ((a <<< 24) ||| (b <<< 16) ||| (c <<< 8) ||| d) :: bytesToWords rest
  | _ => []

/-- Split a word sequence into blocks of 16 words; the fuel argument is
an upper bound on the recursion depth (the list length suffices). -/
def chunksOf16 : Nat → List Nat → List (List Nat)
  | 0, _ => []
  | _, [] => []
  | fuel + 1, ws => ws.take 16 :: chunksOf16 fuel (ws.drop 16)

/-- Extend a 16-word block to the 64-word message schedule;
the fuel argument counts the 48 remaining extension steps. -/
def extendSchedule : Nat → List Nat → List Nat
  | 0, w => w
  | fuel + 1, w =>
    let i := w.length
    let x15 := w.getD (i - 15) 0
    let x2 := w.getD (i - 2) 0
    let s0 := w32 (rotr 7 x15 ^^^ rotr 18 x15 ^^^ (x15 >>> 3))
    let s1 := w32 (rotr 17 x2 ^^^ rotr 19 x2 ^^^ (x2 >>> 10))
    extendSchedule fuel (w ++ [w32 (w.getD (i - 16) 0 + s0 + w.getD (i - 7) 0 + s1)])

/-- One SHA-256 compression round on the state `[a,b,c,d,e,f,g,h]`. -/
def sha256Round (st : List Nat) (k w : Nat) : List Nat :=
  match st with
  | [a, b, c, d, e, f, g, h] =>
    let S1 := rotr 6 e ^^^ rotr 11 e ^^^ rotr 25 e
    let ch := (e &&& f) ^^^ ((e ^^^ 4294967295) &&& g)
    let temp1 := w32 (h + S1 + ch + k + w)
    let S0 := rotr 2 a ^^^ rotr 13 a ^^^ rotr 22 a
    let maj := (a &&& b) ^^^ (a &&& c) ^^^ (b &&& c)
    let temp2 := w32 (S0 + maj)
    [w32 (temp1 + temp2), a, b, c, w32 (d + temp1), e, f, g]
  | other => other

/-- Compress one 16-word block into the running hash state. -/
def sha256Block (h : List Nat) (blockWords : List Nat) : List Nat :=
  let w := extendSchedule 48 blockWords
  let st := (shaK.zip w).foldl (fun st kw => sha256Round st kw.1 kw.2) h
  (h.zip st).map (fun p => w32 (p.1 + p.2))

/-- SHA-256 of a byte string, as 32 bytes. -/
def sha256 (msg : List Nat) : List Nat :=
  let ws := bytesToWords (sha256Pad msg)
  let blocks := chunksOf16 ws.length ws
  (blocks.foldl sha256Block shaH0).foldr (fun wrd acc => toBytesBE 4 wrd ++ acc) []

/-! ## Base58 (utils.go: Base58Encode / Base58Decode) -/

/-- A big-endian byte string read as a natural number (big.Int.SetBytes). -/
def bytesToNat (l : List Nat) : Nat := l.foldl (fun n b => n * 256 + b) 0

/-- Big-endian base-`base` digits of a number, most significant first, empty
for zero — the repeated div/mod loop of Base58Encode and big.Int.Bytes.
The first argument is recursion fuel; the number itself is always enough. -/
def natDigitsBE (base : Nat) : Nat → Nat → List Nat
  | 0, _ => []
  | fuel + 1, n => if n = 0 then [] else natDigitsBE base fuel (n / base) ++ [n % base]

/-- Minimal big-endian byte expansion of a natural number (big.Int.Bytes). -/
def natToBytes (n : Nat) : List Nat := natDigitsBE 256 n n

/-- The Bitcoin Base58 alphabet "123456789ABCDEFGHJKLMNPQRSTUVWXYZ
abcdefghijkmnopqrstuvwxyz", as byte values. -/
def b58Alphabet : List Nat :=
  [49, 50, 51, 52, 53, 54, 55, 56, 57,
   65, 66, 67, 68, 69, 70, 71, 72, 74, 75, 76, 77, 78, 80, 81, 82, 83, 84,
   85, 86, 87, 88, 89, 90,
   97, 98, 99, 100, 101, 102, 103, 104, 105, 106, 107, 109, 110, 111, 112,
   113, 114, 115, 116, 117, 118, 119, 120, 121, 122]

/-- Base58Encode: count leading zero bytes, read the input as a big integer,
emit its base-58 digits through the alphabet, and prepend one '1' (byte 49)
per leading zero byte. -/
def Base58Encode (input : List Nat) : List Nat :=
  let zeros := (input.takeWhile (fun b => b = 0)).length
  let num := bytesToNat input
  List.replicate zeros 49 ++ (natDigitsBE 58 num num).map (fun d => b58Alphabet.getD d 0)

/-- bytes.IndexByte over the alphabet: the index of a character,
or -1 when absent. -/
def b58CharIndex (b : Nat) : Int :=
  match b58Alphabet.indexOf? b with
  | some i => (i : Int)
  | none => -1

/-- Base58Decode: count leading '1' characters, fold the remaining characters
into a big integer base 58, expand its bytes (big.Int.Bytes takes the
absolute value) and prepend one zero byte per leading '1'. -/
def Base58Decode (input : List Nat) : List Nat :=
  let zeros := (input.takeWhile (fun b => b = 49)).length
  let payload := input.drop zeros
  let num : Int := payload.foldl (fun r b => r * 58 + b58CharIndex b) 0
  List.replicate zeros 0 ++ natToBytes num.natAbs

/-! ## Address checksum and validation (utils.go) -/

def addressChecksumLen : Nat := 4

/-- checksum: the first 4 bytes of the double SHA-256 of the payload. -/
def checksum (payload : List Nat) : List Nat :=
  (sha256 (sha256 payload)).take addressChecksumLen

/-- ValidateAddress: Base58-decode, reject when fewer than 5 bytes remain,
split off the last 4 bytes as the checksum, recompute the checksum of
version byte plus payload, and compare. No other length check is made. -/
def ValidateAddress (address : List Nat) : Bool :=
  let pubKeyHash := Base58Decode address
  if pubKeyHash.length < addressChecksumLen + 1 then false
  else
    let actualChecksum := pubKeyHash.drop (pubKeyHash.length - addressChecksumLen)
    let version := pubKeyHash.headD 0
    let payload := (pubKeyHash.drop 1).take (pubKeyHash.length - addressChecksumLen - 1)
    actualChecksum == checksum (version :: payload)

/-! ## Hex codec (encoding/hex, as used by blockchain.go) -/

/-- The lowercase hex digit character for a value below 16. -/
def hexDigitChar (d : Nat) : Nat := if d < 10 then 48 + d else 87 + d

/-- hex.EncodeToString: two lowercase hex characters per byte. -/
def hexEncode (l : List Nat) : List Nat :=
  l.foldr (fun b acc => hexDigitChar (b / 16) :: hexDigitChar (b % 16) :: acc) []

/-- The value of one hex character, if it is one. -/
def hexCharVal (c : Nat) : Option Nat :=
  if 48 ≤ c ∧ c ≤ 57 then some (c - 48)
  else if 97 ≤ c ∧ c ≤ 102 then some (c - 87)
  else if 65 ≤ c ∧ c ≤ 70 then some (c - 55)
  else none

/-- hex.DecodeString: pairs of hex characters back to bytes; errors on odd
length or a character outside the hex alphabet. -/
def hexDecode : List Nat → Option (List Nat)
  | [] => some []
  | [_] => none
  | a :: b :: rest => do
      let hi ← hexCharVal a
      let lo ← hexCharVal b
      let r ← hexDecode rest
      pure ((hi * 16 + lo) :: r)

/-! ## Transaction data model (blockchain/transaction.go) -/

structure TXInput where
  Txid : List Nat
  Vout : Int
  ScriptSig : List Nat
deriving DecidableEq

structure TXOutput where
  Value : Int
  ScriptPubKey : List Nat
deriving DecidableEq

structure TXOutputs where
  Outputs : List TXOutput
deriving DecidableEq

structure Transaction where
  ID : List Nat
  Vin : List TXInput
  Vout : List TXOutput
deriving DecidableEq

/-- IsLockedWithKey: bytes.Equal of the locking script and the key hash. -/
def TXOutput.IsLockedWithKey (out : TXOutput) (pubKeyHash : List Nat) : Bool :=
  out.ScriptPubKey == pubKeyHash

/-- IsCoinbase: exactly one input, with empty Txid and Vout equal to -1. -/
def Transaction.IsCoinbase (tx : Transaction) : Bool :=
  match tx.Vin with
  | [vin] => vin.Txid.isEmpty && vin.Vout == -1
  | _ => false

/-- The byte values of an ASCII string literal. -/
def strBytes (s : String) : List Nat := s.data.map Char.toNat

/-- The Go slice `Base58Decode(addr)[1 : len-4]` extracting the public-key
hash payload of an address; a decoding shorter than 5 bytes makes the slice
bounds panic, modelled as `none`. -/
def addrPayload (addr : List Nat) : Option (List Nat) :=
  let d := Base58Decode addr
  if 5 ≤ d.length then some ((d.drop 1).take (d.length - 5)) else none

/-- NewCoinbaseTX (transaction.go): a single input with empty Txid, Vout -1
and the note (or the default reward message) as ScriptSig, and a single
output of 100 locked to the decoded public-key hash of the recipient.
The transaction ID is `tx.Hash()` — SHA-256 over the gob encoding with the
ID field cleared — which the embedding takes as a parameter `hashTx`
applied to the transaction with empty ID. -/
def NewCoinbaseTX (hashTx : Transaction → List Nat) (toAddr data : List Nat) :
    Option Transaction :=
  let data := if data.isEmpty then strBytes "Reward to " ++ toAddr else data
  match addrPayload toAddr with
  | none => none
  | some pubKeyHash =>
    let inp : TXInput := ⟨[], -1, data⟩
    let out : TXOutput := ⟨100, pubKeyHash⟩
    let tx0 : Transaction := ⟨[], [inp], [out]⟩
    some { tx0 with ID := hashTx tx0 }

/-! ## Blocks (blockchain/block.go) -/

structure Block where
  Timestamp : Int
  Transactions : List Transaction
  PrevBlockHash : List Nat
  Hash : List Nat
  Nonce : Int
  Height : Int
deriving DecidableEq

/-! ## Merkle tree (blockchain/merkle.go) -/

inductive MerkleNode where
  | mk (left right : Option MerkleNode) (dataBytes : List Nat)

/-- The Data field of a Merkle node. -/
def MerkleNode.Data : MerkleNode → List Nat
  | .mk _ _ d => d

/-- NewMerkleNode: a leaf (both children nil) hashes its datum; an interior
node hashes the concatenation of its children's Data. The source is only
called with both children nil or both non-nil; a single nil child would be
a nil dereference in Go and is mapped to the empty byte string here. -/
def NewMerkleNode (left right : Option MerkleNode) (data : List Nat) : MerkleNode :=
  match left, right with
  | none, none => .mk none none (sha256 data)
  | _, _ =>
    .mk left right
      (sha256 ((left.elim [] MerkleNode.Data) ++ (right.elim [] MerkleNode.Data)))

/-- One pass of the pairing loop `for i := 0; i < len(nodes); i += 2`:
an odd-length level reads `nodes[i+1]` past the end, modelled as `none`. -/
def mkLevel : List MerkleNode → Option (List MerkleNode)
  | [] => some []
  | [_] => none
  | a :: b :: rest => (mkLevel rest).map (fun l => NewMerkleNode (some a) (some b) [] :: l)

/-- The outer loop `for len(nodes) > 1`, followed by taking `nodes[0]` —
an index-out-of-range panic (`none`) on the empty list. The fuel argument
bounds the iteration count; the node count suffices since every pass
strictly shrinks the level. -/
def mergeLevels : Nat → List MerkleNode → Option MerkleNode
  | _, [] => none
  | _, [n] => some n
  | 0, _ :: _ :: _ => none
  | fuel + 1, a :: b :: rest =>
      match mkLevel (a :: b :: rest) with
      | none => none
      | some next => mergeLevels fuel next

/-- NewMerkleTree: duplicate the last datum when the count is odd, hash each
datum into a leaf, then pair levels until one node remains. Out-of-range
reads (empty input; odd intermediate levels) are the `none` branch. -/
def NewMerkleTree (data : List (List Nat)) : Option MerkleNode :=
  let data := if data.length % 2 ≠ 0 then data ++ [data.getLastD []] else data
  let nodes := data.map (fun datum => NewMerkleNode none none datum)
  mergeLevels nodes.length nodes

/-- Block.HashTransactions: the Merkle root of the transaction IDs. -/
def Block.HashTransactions (b : Block) : Option (List Nat) :=
  (NewMerkleTree (b.Transactions.map Transaction.ID)).map MerkleNode.Data

/-! ## The chainstate bucket (bbolt key/value pairs)

The chainstate bucket maps key bytes to serialized `TXOutputs` records;
gob serialization round-trips, so values are modelled as the records
themselves. The bucket is a finite map, modelled as an association list
whose update/delete preserve key uniqueness; theorems observe it only
through `csGet` and `csKeys`. -/

abbrev Chainstate := List (List Nat × TXOutputs)

/-- Bucket Get: `none` models the nil slice returned for an absent key. -/
def csGet (cs : Chainstate) (k : List Nat) : Option TXOutputs := cs.lookup k

/-- Bucket Put: overwrite the entry if the key exists, append otherwise. -/
def csPut (cs : Chainstate) (k : List Nat) (v : TXOutputs) : Chainstate :=
  if cs.any (fun e => e.1 == k) then cs.map (fun e => if e.1 == k then (k, v) else e)
  else cs ++ [(k, v)]

/-- Bucket Delete. -/
def csDelete (cs : Chainstate) (k : List Nat) : Chainstate :=
  cs.filter (fun e => e.1 != k)

/-- The keys present in the bucket. -/
def csKeys (cs : Chainstate) : List (List Nat) := cs.map (·.1)

/-! ## UTXOSet.Update (blockchain.go 112-152) -/

/-- The body of the inner output filter of Update: keep the outputs whose
position in the *current* record differs from `vout`. -/
def updatedOutsFor (outs : TXOutputs) (vout : Int) : List TXOutput :=
  (outs.Outputs.enum.filter (fun p => ((p.1 : Int) != vout))).map (·.2)

/-- The per-input loop of Update: load the record at `vin.Txid` (raw bytes)
— an absent key yields nil and `DeserializeOutputs(nil)` panics, the `none`
branch — drop the spent output, then delete or overwrite the record. -/
def applyVins (cs : Chainstate) : List TXInput → Option Chainstate
  | [] => some cs
  | vin :: rest =>
    match csGet cs vin.Txid with
    | none => none
    | some outs =>
      let updatedOuts := updatedOutsFor outs vin.Vout
      let cs' := if updatedOuts.isEmpty then csDelete cs vin.Txid
                 else csPut cs vin.Txid ⟨updatedOuts⟩
      applyVins cs' rest

/-- The per-transaction loop of Update: spend the inputs of non-coinbase
transactions, then store all outputs of the transaction under its raw ID. -/
def updateTxs (cs : Chainstate) : List Transaction → Option Chainstate
  | [] => some cs
  | tx :: rest =>
    match (if tx.IsCoinbase then some cs else applyVins cs tx.Vin) with
    | none => none
    | some cs1 => updateTxs (csPut cs1 tx.ID ⟨tx.Vout⟩) rest

/-- UTXOSet.Update: apply one block's transactions to the chainstate. -/
def UTXOSet.Update (cs : Chainstate) (block : Block) : Option Chainstate :=
  updateTxs cs block.Transactions

/-- Update applied to every block of a chain (genesis first). -/
def applyBlocks (cs : Chainstate) : List Block → Option Chainstate
  | [] => some cs
  | b :: rest =>
    match UTXOSet.Update cs b with
    | none => none
    | some cs' => applyBlocks cs' rest

/-! ## Blockchain.FindUTXO and UTXOSet.Reindex (blockchain.go 76-108, 325-384)

A chain is the list of its blocks in chain order, genesis first; the
iterator walks it tip to genesis, so passes fold over the reversed list. -/

/-- The spent-outputs map of pass 1, keyed by hex-encoded transaction ID. -/
abbrev SpentMap := List (List Nat × List Int)

/-- `spentTXOs[inTxID] = append(spentTXOs[inTxID], in.Vout)`. -/
def addSpent (m : SpentMap) (k : List Nat) (v : Int) : SpentMap :=
  if m.any (fun e => e.1 == k) then
    m.map (fun e => if e.1 == k then (e.1, e.2 ++ [v]) else e)
  else m ++ [(k, [v])]

/-- Pass 1, one transaction: record every input of non-coinbase
transactions under the hex encoding of its referenced transaction ID. -/
def collectSpentTx (m : SpentMap) (tx : Transaction) : SpentMap :=
  if tx.IsCoinbase then m
  else tx.Vin.foldl (fun m vin => addSpent m (hexEncode vin.Txid) vin.Vout) m

/-- Pass 1 over the whole chain, tip to genesis. -/
def collectSpent (chain : List Block) : SpentMap :=
  chain.reverse.foldl (fun m b => b.Transactions.foldl collectSpentTx m) []

/-- The inner spent check of pass 2. -/
def isSpentOut (spentTXOs : SpentMap) (txIDHex : List Nat) (outIdx : Nat) : Bool :=
  match spentTXOs.lookup txIDHex with
  | some spentOuts => spentOuts.any (fun spentOutIdx => spentOutIdx == (outIdx : Int))
  | none => false

/-- Pass 2, one transaction: the outputs whose original index is not spent. -/
def unspentOutsOf (spent : SpentMap) (tx : Transaction) : TXOutputs :=
  ⟨(tx.Vout.enum.filter (fun p => !(isSpentOut spent (hexEncode tx.ID) p.1))).map (·.2)⟩

/-- Blockchain.FindUTXO: two passes over the chain; the result maps the
*hex-encoded* transaction ID to the record of unspent outputs — stored even
when empty. -/
def Blockchain.FindUTXO (chain : List Block) : Chainstate :=
  let spent := collectSpent chain
  chain.reverse.foldl
    (fun utxo b =>
      b.Transactions.foldl
        (fun utxo tx => csPut utxo (hexEncode tx.ID) (unspentOutsOf spent tx)) utxo)
    []

/-- UTXOSet.Reindex: drop and recreate the bucket, then store every pair of
Blockchain.FindUTXO — with `[]byte(txID)`, the hex string bytes, as key. -/
def UTXOSet.Reindex (chain : List Block) : Chainstate :=
  Blockchain.FindUTXO chain

/-! ## UTXOSet.FindSpendableOutputs (blockchain.go 20-49) -/

/-- The selection map: chainstate key (used verbatim, `string(k)`) to the
chosen output indices. -/
abbrev SelMap := List (List Nat × List Nat)

/-- `unspentOutputs[txID] = append(unspentOutputs[txID], outIdx)`. -/
def selAppend (m : SelMap) (k : List Nat) (i : Nat) : SelMap :=
  if m.any (fun e => e.1 == k) then
    m.map (fun e => if e.1 == k then (e.1, e.2 ++ [i]) else e)
  else m ++ [(k, [i])]

/-- The inner loop over one record's outputs: accumulate each output locked
with the key hash, and report `true` to break out of both loops as soon as
the accumulated value reaches the amount — checked after accumulating. -/
def scanOutputs (pubkeyHash : List Nat) (amount : Int) (k : List Nat) :
    List TXOutput → Nat → Int → SelMap → Int × SelMap × Bool
  | [], _, acc, sel => (acc, sel, false)
  | out :: rest, outIdx, acc, sel =>
    if out.IsLockedWithKey pubkeyHash then
      let acc' := acc + out.Value
      let sel' := selAppend sel k outIdx
      if acc' ≥ amount then (acc', sel', true)
      else scanOutputs pubkeyHash amount k rest (outIdx + 1) acc' sel'
    else scanOutputs pubkeyHash amount k rest (outIdx + 1) acc sel

/-- The cursor loop over the chainstate entries, with the labelled break. -/
def fsoLoop (pubkeyHash : List Nat) (amount : Int) :
    Chainstate → Int → SelMap → Int × SelMap
  | [], acc, sel => (acc, sel)
  | (k, outs) :: rest, acc, sel =>
    match scanOutputs pubkeyHash amount k outs.Outputs 0 acc sel with
    | (acc', sel', true) => (acc', sel')
    | (acc', sel', false) => fsoLoop pubkeyHash amount rest acc' sel'

/-- UTXOSet.FindSpendableOutputs: scan the chainstate accumulating outputs
locked with `pubkeyHash` until the amount is reached. -/
def UTXOSet.FindSpendableOutputs (cs : Chainstate) (pubkeyHash : List Nat)
    (amount : Int) : Int × SelMap :=
  fsoLoop pubkeyHash amount cs 0 []

/-! ## NewUTXOTransaction (blockchain.go 387-423) and the send path -/

/-- The input-building loop: each selection key is hex-decoded back to raw
transaction ID bytes (`hex.DecodeString`; failure panics, the `none`
branch), and one input per chosen output index is built carrying the
sender's address string as ScriptSig. -/
def buildInputs (sender : List Nat) : SelMap → Option (List TXInput)
  | [] => some []
  | (txidStr, outs) :: rest => do
      let txID ← hexDecode txidStr
      let more ← buildInputs sender rest
      pure (outs.map (fun out => TXInput.mk txID (out : Int) sender) ++ more)

/-- NewUTXOTransaction: find spendable outputs for the sender's decoded
public-key hash; `log.Panic("ERROR: Not enough funds")` when the
accumulated value is below the amount; otherwise build the inputs, the
payment output, and a change output when the accumulation overshot. -/
def NewUTXOTransaction (hashTx : Transaction → List Nat) (cs : Chainstate)
    (sender toAddr : List Nat) (amount : Int) : Except String Transaction :=
  match addrPayload sender with
  | none => .error "slice bounds out of range"
  | some pubKeyHash =>
    match UTXOSet.FindSpendableOutputs cs pubKeyHash amount with
    | (acc, validOutputs) =>
      if acc < amount then .error "ERROR: Not enough funds"
      else
        match buildInputs sender validOutputs with
        | none => .error "encoding/hex: invalid byte"
        | some inputs =>
          match addrPayload toAddr with
          | none => .error "slice bounds out of range"
          | some toPkh =>
            let outputs := [TXOutput.mk amount toPkh] ++
              (if acc > amount then [TXOutput.mk (acc - amount) pubKeyHash] else [])
            let tx0 : Transaction := ⟨[], inputs, outputs⟩
            .ok { tx0 with ID := hashTx tx0 }

/-- The cli `send` path with immediate mining: build the transaction —
`log.Panic` on failure leaves chain and chainstate untouched — then mine a
block with a fresh coinbase for the sender plus the transaction, append it
to the chain, and apply it to the chainstate. Mining (proof of work over a
wall-clock timestamp) is abstracted as the `mine` parameter. -/
def sendMine (mine : List Transaction → Block) (hashTx : Transaction → List Nat)
    (chain : List Block) (cs : Chainstate) (sender toAddr : List Nat)
    (amount : Int) : Option String × List Block × Chainstate :=
  match NewUTXOTransaction hashTx cs sender toAddr amount with
  | .error e => (some e, chain, cs)
  | .ok tx =>
    match NewCoinbaseTX hashTx sender [] with
    | none => (some "slice bounds out of range", chain, cs)
    | some cbTx =>
      let newBlock := mine [cbTx, tx]
      let chain' := chain ++ [newBlock]
      match UTXOSet.Update cs newBlock with
      | none => (some "DeserializeOutputs: unexpected EOF", chain', cs)
      | some cs' => (none, chain', cs')

/-! ## Concrete scenario data

A minimal single-block chain: a genesis block holding one coinbase
transaction with a fixed 32-byte ID, and a follow-up block spending its
output. Transaction IDs are SHA-256 digests in the source, so any fixed
32-byte value is a faithful instance. -/

/-- A 32-byte transaction ID (all zero bytes). -/
def zeroTxid : List Nat := List.replicate 32 0

/-- A genesis coinbase transaction paying 100 to the key hash `[7, 7]`. -/
def cbTx0 : Transaction := ⟨zeroTxid, [⟨[], -1, [65]⟩], [⟨100, [7, 7]⟩]⟩

/-- The genesis block containing only `cbTx0`. -/
def genesisB : Block := ⟨0, [cbTx0], [], [9], 0, 0⟩

/-- A transaction spending output 0 of `cbTx0` (raw 32-byte Txid, as
NewUTXOTransaction builds inputs after hex.DecodeString). -/
def spendTx : Transaction := ⟨[1], [⟨zeroTxid, 0, [65]⟩], [⟨100, [8]⟩]⟩

/-- A follow-up block holding only `spendTx`. -/
def spendB : Block := ⟨0, [spendTx], [9], [10], 0, 1⟩

/-- A chainstate with a single record holding one output of value 5
locked to the key hash `[7, 7]`. -/
def cs4 : Chainstate := [(zeroTxid, ⟨[⟨5, [7, 7]⟩]⟩)]

/-- The Base58 encoding of `0x00 ++ checksum [0x00]`: 5 decoded bytes —
a 1-byte version, an empty payload and a valid 4-byte checksum. -/
def addr5 : List Nat := Base58Encode (0 :: checksum [0])

end MiniCoin

namespace MiniCoin

/-! ## C1 / C2: key encoding of the chainstate bucket -/

/-- C1: the claim states every chainstate key written by Reindex and Update
is the raw 32-byte transaction ID, with the raw bytes of every non-coinbase
input present as a key when its block is applied. Reindex violates this: on
the single-block chain `[genesisB]` it stores the record under the 64-byte
hex encoding of the transaction ID, the raw 32-byte ID is not a key, and
applying the spending block `spendB` fails because `Update` looks the raw
input bytes up and finds nothing. -/
theorem C1_reindex_writes_hex_keys :
    csKeys (UTXOSet.Reindex [genesisB]) = [hexEncode zeroTxid] ∧
    (hexEncode zeroTxid).length = 64 ∧ zeroTxid.length = 32 ∧
    hexEncode zeroTxid ≠ zeroTxid ∧
    csGet (UTXOSet.Reindex [genesisB]) zeroTxid = none ∧
    UTXOSet.Update (UTXOSet.Reindex [genesisB]) spendB = none := by
  decide

/-- C2: the claim states that applying Update to every block of a chain in
order, from an empty chainstate, equals one Reindex over the chain. On the
single-block chain `[genesisB]` the two disagree: Update stores the record
under the raw 32-byte ID, Reindex under its 64-byte hex encoding. -/
theorem C2_update_reindex_disagree :
    applyBlocks [] [genesisB] ≠ some (UTXOSet.Reindex [genesisB]) ∧
    applyBlocks [] [genesisB] = some [(zeroTxid, ⟨[⟨100, [7, 7]⟩]⟩)] ∧
    csGet (UTXOSet.Reindex [genesisB]) zeroTxid = none ∧
    csGet (UTXOSet.Reindex [genesisB]) (hexEncode zeroTxid) =
      some ⟨[⟨100, [7, 7]⟩]⟩ := by
  decide

/-! ## C3: the Merkle root of a single leaf -/

/-- C3 counterexample: for the concrete 32-byte leaf `zeroTxid` the Merkle
root is not `SHA-256(leaf)` as claimed. -/
theorem C3_cex :
    (NewMerkleTree [zeroTxid]).map MerkleNode.Data ≠ some (sha256 zeroTxid) := by
  decide

/-- C3 amended: for every single-leaf input, the duplication rule pairs the
leaf with itself, so the root is `SHA-256(SHA-256(leaf) ‖ SHA-256(leaf))`. -/
theorem C3_single_leaf_root (leaf : List Nat) :
    (NewMerkleTree [leaf]).map MerkleNode.Data =
      some (sha256 (sha256 leaf ++ sha256 leaf)) := by
  unfold NewMerkleTree
  norm_num
  exact ⟨_, rfl, rfl⟩

/-! ## C9: partiality of NewMerkleTree -/

/-- C9: NewMerkleTree takes the error branch on the empty input (it reads
`nodes[0]` of an empty slice) and on six leaves (duplication keeps 6 nodes,
one pass leaves 3, and the pairing loop reads `nodes[i+1]` past the end);
Block.HashTransactions inherits the failure for a six-transaction block. -/
theorem C9_merkle_error_branches (l1 l2 l3 l4 l5 l6 : List Nat)
    (tx1 tx2 tx3 tx4 tx5 tx6 : Transaction) (ts n ht : Int) (pb hs : List Nat) :
    NewMerkleTree [] = none ∧
    NewMerkleTree [l1, l2, l3, l4, l5, l6] = none ∧
    Block.HashTransactions ⟨ts, [tx1, tx2, tx3, tx4, tx5, tx6], pb, hs, n, ht⟩ = none := by
  refine ⟨rfl, ?_, ?_⟩
  · unfold NewMerkleTree
    norm_num
    exact rfl
  · unfold Block.HashTransactions NewMerkleTree
    norm_num
    exact rfl

/-! ## C10: partiality of UTXOSet.Update -/

/-- C10: when the first transaction of a block is not a coinbase and its
first input references a transaction ID absent from the chainstate, the
bucket lookup yields nil, `DeserializeOutputs(nil)` panics, and the total
embedding of Update takes its error branch. -/
theorem C10_update_missing_reference (cs : Chainstate) (tx : Transaction)
    (rest : List Transaction) (vin : TXInput) (vins : List TXInput)
    (ts n ht : Int) (pb hs : List Nat)
    (hcb : tx.IsCoinbase = false) (hvin : tx.Vin = vin :: vins)
    (habs : csGet cs vin.Txid = none) :
    UTXOSet.Update cs ⟨ts, tx :: rest, pb, hs, n, ht⟩ = none := by
  simp [UTXOSet.Update, updateTxs, hcb, hvin, applyVins, habs]

/-- C10 witness: the spending block applied to the empty chainstate. -/
theorem C10_witness : UTXOSet.Update [] spendB = none :=
  C10_update_missing_reference [] spendTx [] ⟨zeroTxid, 0, [65]⟩ [] 0 0 1 [9] [10]
    (by decide) rfl (by decide)

/-! ## C4: FindSpendableOutputs at amount 0 -/

/-- C4 counterexample: on a chainstate holding an output of value 5 locked
to the queried key hash, `FindSpendableOutputs(pkh, 0)` does not return
`(0, empty)` — the first matching output is accumulated before the
threshold check. -/
theorem C4_cex : UTXOSet.FindSpendableOutputs cs4 [7, 7] 0 ≠ (0, []) := by
  decide

/-- C4 amended: `FindSpendableOutputs(pkh, amount)` — in particular at
amount 0 — returns `(0, empty)` provided no output in the chainstate is
locked with `pkh`; a matching output is accumulated into the result first
and only then compared against the amount. -/
theorem C4_zero_without_match (cs : Chainstate) (pkh : List Nat) (amount : Int)
    (h : ∀ e ∈ cs, ∀ out ∈ e.2.Outputs, out.ScriptPubKey ≠ pkh) :
    UTXOSet.FindSpendableOutputs cs pkh amount = (0, []) := by
  have scan : ∀ (k : List Nat) (outs : List TXOutput) (outIdx : Nat) (acc : Int)
      (sel : SelMap), (∀ out ∈ outs, out.ScriptPubKey ≠ pkh) →
      scanOutputs pkh amount k outs outIdx acc sel = (acc, sel, false) := by
    intro k outs
    induction outs with
    | nil => intro _ _ _ _; rfl
    | cons out rest ih =>
      intro outIdx acc sel hno
      have hlock : out.IsLockedWithKey pkh = false := by
        simp [TXOutput.IsLockedWithKey]
        exact hno out (by simp)
      simp only [scanOutputs, hlock, Bool.false_eq_true, if_false]
      exact ih _ _ _ (fun o ho => hno o (by simp [ho]))
  suffices loop : ∀ (cs' : Chainstate) (acc : Int) (sel : SelMap),
      (∀ e ∈ cs', ∀ out ∈ e.2.Outputs, out.ScriptPubKey ≠ pkh) →
      fsoLoop pkh amount cs' acc sel = (acc, sel) by
    exact loop cs 0 [] h
  intro cs'
  induction cs' with
  | nil => intro _ _ _; rfl
  | cons e rest ih =>
    intro acc sel hno
    obtain ⟨k, outs⟩ := e
    simp only [fsoLoop]
    rw [scan k outs.Outputs 0 acc sel (fun o ho => hno (k, outs) (by simp) o ho)]
    exact ih _ _ (fun e he o ho => hno e (by simp [he]) o ho)

/-- C4 witness: a chainstate with an output locked to a different key. -/
theorem C4_witness : UTXOSet.FindSpendableOutputs cs4 [9] 0 = (0, []) :=
  C4_zero_without_match cs4 [9] 0 (by decide)

/-! ## C6: the shape of a coinbase transaction -/

/-- C6: for every recipient address (decoding to the standard 25 bytes) and
every note, NewCoinbaseTX yields a transaction with exactly one input whose
Txid is empty and whose Vout is -1 — so IsCoinbase holds — and exactly one
output of the fixed reward 100 whose ScriptPubKey is the 20-byte payload
decoded from the address. -/
theorem C6_coinbase_shape (hashTx : Transaction → List Nat) (toAddr data : List Nat)
    (h : (Base58Decode toAddr).length = 25) :
    ∃ tx, NewCoinbaseTX hashTx toAddr data = some tx ∧
      tx.Vin.length = 1 ∧ (∀ vin ∈ tx.Vin, vin.Txid = [] ∧ vin.Vout = -1) ∧
      tx.IsCoinbase = true ∧
      tx.Vout = [⟨100, ((Base58Decode toAddr).drop 1).take 20⟩] ∧
      (((Base58Decode toAddr).drop 1).take 20).length = 20 := by
  have hp : addrPayload toAddr = some (((Base58Decode toAddr).drop 1).take 20) := by
    simp [addrPayload, h]
  unfold NewCoinbaseTX
  rw [hp]
  refine ⟨_, rfl, rfl, ?_, rfl, rfl, ?_⟩
  · intro vin hv
    simp only [List.mem_singleton] at hv
    subst hv
    exact ⟨rfl, rfl⟩
  · simp [List.length_take, List.length_drop, h]

/-- C6 witness: a concrete 25-byte decoding address. -/
theorem C6_witness :
    ∃ tx, NewCoinbaseTX (fun _ => []) (Base58Encode (1 :: List.replicate 24 0)) [66] =
        some tx ∧
      tx.Vin.length = 1 ∧ (∀ vin ∈ tx.Vin, vin.Txid = [] ∧ vin.Vout = -1) ∧
      tx.IsCoinbase = true ∧
      tx.Vout = [⟨100, ((Base58Decode (Base58Encode (1 :: List.replicate 24 0))).drop 1).take 20⟩] ∧
      (((Base58Decode (Base58Encode (1 :: List.replicate 24 0))).drop 1).take 20).length = 20 :=
  C6_coinbase_shape (fun _ => []) (Base58Encode (1 :: List.replicate 24 0)) [66]
    (by decide)

/-! ## C5: insufficient funds -/

/-- C5: whenever FindSpendableOutputs accumulates strictly less than the
requested amount for the sender's decoded public-key hash,
NewUTXOTransaction fails with the insufficient-funds error, and the send
path aborts with the chain and chainstate unchanged — no block appended,
so the best height is unchanged too. -/
theorem C5_insufficient_funds (mine : List Transaction → Block)
    (hashTx : Transaction → List Nat) (chain : List Block) (cs : Chainstate)
    (sender toAddr : List Nat) (amount : Int) (pkh : List Nat)
    (hp : addrPayload sender = some pkh)
    (hacc : (UTXOSet.FindSpendableOutputs cs pkh amount).1 < amount) :
    NewUTXOTransaction hashTx cs sender toAddr amount =
      .error "ERROR: Not enough funds" ∧
    sendMine mine hashTx chain cs sender toAddr amount =
      (some "ERROR: Not enough funds", chain, cs) := by
  have htx : NewUTXOTransaction hashTx cs sender toAddr amount =
      .error "ERROR: Not enough funds" := by
    unfold NewUTXOTransaction
    split
    · next heq =>
      rw [hp] at heq
      exact absurd heq (by simp)
    · next pubKeyHash heq =>
      rw [hp] at heq
      injection heq with heq
      subst heq
      split
      next acc validOutputs hE =>
        rw [hE] at hacc
        simp only at hacc
        rw [if_pos hacc]
  refine ⟨htx, ?_⟩
  unfold sendMine
  rw [htx]

/-- C5 witness: an empty chainstate cannot fund a send of 1. -/
theorem C5_witness :
    NewUTXOTransaction (fun _ => []) [] [49, 49, 49, 49, 49] [49, 49, 49, 49, 49] 1 =
      .error "ERROR: Not enough funds" ∧
    sendMine (fun _ => genesisB) (fun _ => []) [genesisB] [] [49, 49, 49, 49, 49]
      [49, 49, 49, 49, 49] 1 = (some "ERROR: Not enough funds", [genesisB], []) :=
  C5_insufficient_funds (fun _ => genesisB) (fun _ => []) [genesisB] []
    [49, 49, 49, 49, 49] [49, 49, 49, 49, 49] 1 [] (by decide) (by decide)

/-! ## C8: address validation -/

/-- C8 counterexample: the address `addr5` decodes to 5 bytes — a version
byte, an empty payload and a valid checksum — and ValidateAddress accepts
it, so decoded lengths other than 25 are not rejected. -/
theorem C8_cex :
    ValidateAddress addr5 = true ∧ (Base58Decode addr5).length = 5 ∧
    (Base58Decode addr5).length ≠ 25 := by
  decide

/-- Splitting off the head of a list and taking the remainder is taking
from the front: the version byte consed onto the payload slice is the
decoded prefix before the checksum. -/
theorem headD_cons_take_eq_take (d : List Nat) (hlen : 5 ≤ d.length) :
    d.headD 0 :: (d.drop 1).take (d.length - 4 - 1) = d.take (d.length - 4) := by
  cases d with
  | nil => simp at hlen
  | cons a t =>
    simp only [List.length_cons] at hlen ⊢
    have h1 : t.length + 1 - 4 = (t.length - 4) + 1 := by omega
    have h2 : t.length + 1 - 4 - 1 = t.length - 4 := by omega
    rw [h2, h1]
    simp [List.take_succ_cons]

/-- C8 amended: ValidateAddress accepts only when the decoding is at least
5 bytes and its last 4 bytes equal the checksum of the preceding bytes
(version byte plus payload); the payload length is otherwise
unconstrained — a 25-byte decoding is not required. -/
theorem C8_validate_checksum_split (address : List Nat)
    (h : ValidateAddress address = true) :
    5 ≤ (Base58Decode address).length ∧
    (Base58Decode address).drop ((Base58Decode address).length - 4) =
      checksum ((Base58Decode address).take ((Base58Decode address).length - 4)) := by
  simp only [ValidateAddress, addressChecksumLen] at h
  by_cases hlen : (Base58Decode address).length < 4 + 1
  · rw [if_pos hlen] at h
    exact absurd h (by simp)
  · rw [if_neg hlen] at h
    push_neg at hlen
    refine ⟨hlen, ?_⟩
    rw [beq_iff_eq] at h
    rw [h, headD_cons_take_eq_take (Base58Decode address) hlen]

/-- C8 witness: the 5-byte-decoding address validates, and the theorem
splits it as version plus checksum. -/
theorem C8_witness :
    5 ≤ (Base58Decode addr5).length ∧
    (Base58Decode addr5).drop ((Base58Decode addr5).length - 4) =
      checksum ((Base58Decode addr5).take ((Base58Decode addr5).length - 4)) :=
  C8_validate_checksum_split addr5 (by decide)

/-! ## C7: Base58 round-trip

The helper lemmas relate the big-integer digit loops of Base58Encode,
Base58Decode and big.Int byte conversion to each other. -/

theorem natDigitsBE_fuel_eq (base : Nat) (hb : 2 ≤ base) :
    ∀ n f₁ f₂, n ≤ f₁ → n ≤ f₂ → natDigitsBE base f₁ n = natDigitsBE base f₂ n := by
  intro n
  induction n using Nat.strong_induction_on with
  | _ n ih =>
    intro f₁ f₂ h₁ h₂
    cases f₁ with
    | zero =>
      have hn : n = 0 := Nat.le_zero.mp h₁
      subst hn
      cases f₂ <;> simp [natDigitsBE]
    | succ f₁ =>
      cases f₂ with
      | zero =>
        have hn : n = 0 := Nat.le_zero.mp h₂
        subst hn
        simp [natDigitsBE]
      | succ f₂ =>
        simp only [natDigitsBE]
        by_cases hn : n = 0
        · simp [hn]
        · rw [if_neg hn, if_neg hn]
          have hdiv : n / base < n := Nat.div_lt_self (Nat.pos_of_ne_zero hn) (by omega)
          rw [ih (n / base) hdiv f₁ f₂ (by omega) (by omega)]

theorem natDigitsBE_self_eq (base : Nat) (hb : 2 ≤ base) (n : Nat) :
    natDigitsBE base n n =
      if n = 0 then [] else natDigitsBE base (n / base) (n / base) ++ [n % base] := by
  by_cases hn : n = 0
  · subst hn; simp [natDigitsBE]
  · obtain ⟨m, rfl⟩ : ∃ m, n = m + 1 := ⟨n - 1, by omega⟩
    rw [if_neg hn]
    simp only [natDigitsBE, hn, if_neg, if_false]
    congr 1
    exact natDigitsBE_fuel_eq base hb _ _ _
      (Nat.le_of_lt_succ (Nat.div_lt_self (by omega) (by omega))) le_rfl

theorem natDigitsBE_lt (base : Nat) (hbpos : 0 < base) :
    ∀ fuel n, ∀ d ∈ natDigitsBE base fuel n, d < base := by
  intro fuel
  induction fuel with
  | zero => intro n d hd; simp [natDigitsBE] at hd
  | succ fuel ih =>
    intro n d hd
    simp only [natDigitsBE] at hd
    by_cases hn : n = 0
    · simp [hn] at hd
    · rw [if_neg hn] at hd
      rcases List.mem_append.mp hd with h | h
      · exact ih _ _ h
      · simp only [List.mem_singleton] at h
        subst h
        exact Nat.mod_lt _ hbpos

theorem natDigitsBE_self_ne_nil (base : Nat) (hb : 2 ≤ base) (n : Nat) (hn : n ≠ 0) :
    natDigitsBE base n n ≠ [] := by
  rw [natDigitsBE_self_eq base hb, if_neg hn]
  simp

theorem natDigitsBE_head_ne_zero (base : Nat) (hb : 2 ≤ base) :
    ∀ n, n ≠ 0 → ∀ d, (natDigitsBE base n n).head? = some d → d ≠ 0 := by
  intro n
  induction n using Nat.strong_induction_on with
  | _ n ih =>
    intro hn d hd
    rw [natDigitsBE_self_eq base hb, if_neg hn] at hd
    by_cases hq : n / base = 0
    · rw [hq] at hd
      simp only [natDigitsBE, List.nil_append, List.head?_cons, Option.some.injEq] at hd
      subst hd
      have hlt : n < base := by
        by_contra hge
        push_neg at hge
        have := Nat.div_pos hge (by omega)
        omega
      rw [Nat.mod_eq_of_lt hlt]
      exact hn
    · have hne := natDigitsBE_self_ne_nil base hb (n / base) hq
      obtain ⟨x, xs, hx⟩ := List.exists_cons_of_ne_nil hne
      rw [hx, List.cons_append, List.head?_cons, Option.some.injEq] at hd
      subst hd
      exact ih (n / base) (Nat.div_lt_self (Nat.pos_of_ne_zero hn) (by omega)) hq x
        (by rw [hx]; rfl)

theorem foldl_bytes_pos : ∀ (l : List Nat) (n : Nat), 0 < n →
    0 < l.foldl (fun n b => n * 256 + b) n := by
  intro l
  induction l with
  | nil => intro n h; simpa using h
  | cons a t ih =>
    intro n h
    simp only [List.foldl_cons]
    exact ih _ (by omega)

theorem bytesToNat_pos (a : Nat) (t : List Nat) (ha : a ≠ 0) : 0 < bytesToNat (a :: t) := by
  simp only [bytesToNat, List.foldl_cons]
  exact foldl_bytes_pos t (0 * 256 + a) (by omega)

theorem bytesToNat_append (l : List Nat) (b : Nat) :
    bytesToNat (l ++ [b]) = bytesToNat l * 256 + b := by
  simp [bytesToNat, List.foldl_append]

theorem natToBytes_bytesToNat : ∀ (l : List Nat), (∀ b ∈ l, b < 256) →
    (∀ a, l.head? = some a → a ≠ 0) → natToBytes (bytesToNat l) = l := by
  intro l
  induction l using List.reverseRecOn with
  | nil => intro _ _; rfl
  | append_singleton ys b ih =>
    intro hbound hhead
    rw [bytesToNat_append]
    cases ys with
    | nil =>
      have hb256 : b < 256 := hbound b (by simp)
      have hbne : b ≠ 0 := hhead b (by simp)
      have hzb : bytesToNat [] * 256 + b = b := by simp [bytesToNat]
      rw [hzb, natToBytes, natDigitsBE_self_eq 256 (by omega), if_neg hbne,
        Nat.div_eq_of_lt hb256, Nat.mod_eq_of_lt hb256]
      simp [natDigitsBE]
    | cons a t =>
      have ha : a ≠ 0 := hhead a (by simp)
      have hpos : 0 < bytesToNat (a :: t) := bytesToNat_pos a t ha
      have hb256 : b < 256 := hbound b (by simp)
      have hbound' : ∀ x ∈ a :: t, x < 256 := by
        intro x hx
        apply hbound
        simp only [List.cons_append, List.mem_cons, List.mem_append] at hx ⊢
        tauto
      have hndiv : (bytesToNat (a :: t) * 256 + b) / 256 = bytesToNat (a :: t) := by omega
      have hnmod : (bytesToNat (a :: t) * 256 + b) % 256 = b := by omega
      rw [natToBytes, natDigitsBE_self_eq 256 (by omega), if_neg (by omega),
        hndiv, hnmod, ← natToBytes,
        ih hbound' (fun x hx => by
          simp only [List.head?_cons, Option.some.injEq] at hx
          subst hx
          exact ha)]

theorem b58_digit_roundtrip : ∀ d, d < 58 → b58CharIndex (b58Alphabet.getD d 0) = d := by
  decide

theorem b58_digit_ne_one : ∀ d, d < 58 → d ≠ 0 → b58Alphabet.getD d 0 ≠ 49 := by
  decide

theorem fold_b58_digits (n : Nat) :
    ((natDigitsBE 58 n n).map (fun d => b58Alphabet.getD d 0)).foldl
      (fun (r : Int) b => r * 58 + b58CharIndex b) 0 = (n : Int) := by
  induction n using Nat.strong_induction_on with
  | _ n ih =>
    by_cases hn : n = 0
    · subst hn; rfl
    · rw [natDigitsBE_self_eq 58 (by omega), if_neg hn, List.map_append,
        List.foldl_append]
      simp only [List.map_cons, List.map_nil, List.foldl_cons, List.foldl_nil]
      rw [ih (n / 58) (Nat.div_lt_self (Nat.pos_of_ne_zero hn) (by omega))]
      rw [b58_digit_roundtrip (n % 58) (Nat.mod_lt _ (by omega))]
      have := Nat.div_add_mod n 58
      omega

theorem takeWhile_const_eq_replicate (c : Nat) : ∀ (l : List Nat),
    l.takeWhile (fun b => b = c) =
      List.replicate (l.takeWhile (fun b => b = c)).length c := by
  intro l
  induction l with
  | nil => rfl
  | cons a t ih =>
    by_cases ha : a = c
    · subst ha
      simp only [List.takeWhile_cons, decide_True, if_true, List.length_cons,
        List.replicate_succ, List.cons.injEq, true_and]
      exact ih
    · simp [List.takeWhile_cons, ha]

theorem takeWhile_replicate_append_length (c z : Nat) (l : List Nat)
    (hl : ∀ a, l.head? = some a → a ≠ c) :
    ((List.replicate z c ++ l).takeWhile (fun b => b = c)).length = z := by
  induction z with
  | zero =>
    simp only [List.replicate_zero, List.nil_append]
    cases l with
    | nil => rfl
    | cons a t =>
      have := hl a rfl
      simp [List.takeWhile_cons, this]
  | succ z ih =>
    simp only [List.replicate_succ, List.cons_append, List.takeWhile_cons,
      decide_True, if_true, List.length_cons, ih]

theorem drop_replicate_append (c z : Nat) (l : List Nat) :
    (List.replicate z c ++ l).drop z = l := by
  have h := List.drop_left (List.replicate z c) l
  rwa [List.length_replicate] at h

theorem bytesToNat_replicate_zero (z : Nat) (l : List Nat) :
    bytesToNat (List.replicate z 0 ++ l) = bytesToNat l := by
  induction z with
  | zero => rfl
  | succ z ih =>
    simp only [List.replicate_succ, List.cons_append, bytesToNat, List.foldl_cons] at ih ⊢
    simpa using ih

theorem head_dropWhile_ne (c : Nat) : ∀ (l : List Nat) (a : Nat),
    (l.dropWhile (fun b => b = c)).head? = some a → a ≠ c := by
  intro l
  induction l with
  | nil => intro a h; simp [List.dropWhile] at h
  | cons x t ih =>
    intro a h
    by_cases hx : x = c
    · rw [List.dropWhile_cons] at h
      simp only [hx, decide_True, if_true] at h
      exact ih a h
    · rw [List.dropWhile_cons] at h
      simp only [hx, decide_False, Bool.false_eq_true, if_false, List.head?_cons,
        Option.some.injEq] at h
      omega

/-- C7: for every byte string, Base58 decoding inverts Base58 encoding,
and each leading zero byte corresponds to exactly one leading '1'
character of the encoding (byte 49), restored as a zero byte on decode. -/
theorem C7_base58_roundtrip (X : List Nat) (hX : ∀ b ∈ X, b < 256) :
    Base58Decode (Base58Encode X) = X ∧
    ((Base58Encode X).takeWhile (fun b => b = 49)).length =
      (X.takeWhile (fun b => b = 0)).length := by
  set z := (X.takeWhile (fun b => b = 0)).length with hzdef
  set chars := (natDigitsBE 58 (bytesToNat X) (bytesToNat X)).map
    (fun d => b58Alphabet.getD d 0) with hchars
  have henc : Base58Encode X = List.replicate z 49 ++ chars := rfl
  have hsplit : List.replicate z 0 ++ X.dropWhile (fun b => b = 0) = X := by
    conv_rhs => rw [← List.takeWhile_append_dropWhile (fun b => decide (b = 0)) X]
    congr 1
    rw [hzdef, ← takeWhile_const_eq_replicate]
  have hnum : bytesToNat X = bytesToNat (X.dropWhile (fun b => b = 0)) := by
    conv_lhs => rw [← hsplit]
    rw [bytesToNat_replicate_zero]
  rcases hd : X.dropWhile (fun b => b = 0) with _ | ⟨a, t⟩
  · have hnum0 : bytesToNat X = 0 := by rw [hnum, hd]; rfl
    have hchars0 : chars = [] := by rw [hchars, hnum0]; rfl
    have hz49 : ((List.replicate z 49).takeWhile (fun b => b = 49)).length = z := by
      have h := takeWhile_replicate_append_length 49 z []
        (by intro a ha; simp at ha)
      rwa [List.append_nil] at h
    have hdz : (List.replicate z 49).drop z = [] := by
      have h := drop_replicate_append 49 z []
      rwa [List.append_nil] at h
    constructor
    · rw [henc, hchars0, List.append_nil]
      simp only [Base58Decode]
      rw [hz49, hdz]
      show List.replicate z 0 ++ natToBytes (Int.natAbs 0) = X
      rw [show natToBytes (Int.natAbs 0) = [] from rfl, List.append_nil]
      have := hsplit
      rw [hd, List.append_nil] at this
      exact this
    · rw [henc, hchars0, List.append_nil, hz49]
  · have ha : a ≠ 0 := head_dropWhile_ne 0 X a (by rw [hd]; rfl)
    have hmem : ∀ b ∈ a :: t, b < 256 := by
      intro b hb
      apply hX
      exact (List.dropWhile_sublist (fun b => decide (b = 0))).subset (hd ▸ hb)
    have hXpos : 0 < bytesToNat X := by
      rw [hnum, hd]
      exact bytesToNat_pos a t ha
    have hne := natDigitsBE_self_ne_nil 58 (by omega) (bytesToNat X) (by omega)
    obtain ⟨d0, ds, hds⟩ := List.exists_cons_of_ne_nil hne
    have hd0lt : d0 < 58 := natDigitsBE_lt 58 (by omega) _ _ d0 (by rw [hds]; simp)
    have hd0ne : d0 ≠ 0 := natDigitsBE_head_ne_zero 58 (by omega) (bytesToNat X)
      (by omega) d0 (by rw [hds]; rfl)
    have hchar : b58Alphabet.getD d0 0 ≠ 49 := b58_digit_ne_one d0 hd0lt hd0ne
    have hcharhead : ∀ x, chars.head? = some x → x ≠ 49 := by
      intro x hx
      rw [hchars, hds] at hx
      simp only [List.map_cons, List.head?_cons, Option.some.injEq] at hx
      subst hx
      exact hchar
    have hz49 : ((List.replicate z 49 ++ chars).takeWhile (fun b => b = 49)).length = z :=
      takeWhile_replicate_append_length 49 z chars hcharhead
    have hdz : (List.replicate z 49 ++ chars).drop z = chars :=
      drop_replicate_append 49 z chars
    constructor
    · rw [henc]
      simp only [Base58Decode]
      rw [hz49, hdz, hchars, fold_b58_digits (bytesToNat X), Int.natAbs_ofNat]
      rw [hnum, hd, natToBytes_bytesToNat (a :: t) hmem
        (by
          intro x hx
          simp only [List.head?_cons, Option.some.injEq] at hx
          subst hx
          exact ha)]
      have := hsplit
      rw [hd] at this
      exact this
    · rw [henc, hz49]

/-- C7 witness: a concrete byte string with leading zeros. -/
theorem C7_witness :
    Base58Decode (Base58Encode [0, 0, 255, 1]) = [0, 0, 255, 1] ∧
    ((Base58Encode [0, 0, 255, 1]).takeWhile (fun b => b = 49)).length =
      ([0, 0, 255, 1].takeWhile (fun b => b = 0)).length :=
  C7_base58_roundtrip [0, 0, 255, 1] (by decide)

end MiniCoin
